import Mathlib

/-!
# Verification of an inversive congruential generator (ICG)

Shallow embedding of `ICG.cpp` / `ICG.h`: an inversive congruential generator over
`Z/pZ` with a parameter-validity predicate, a trial-division primality test, a
modular inverse by the extended Euclidean algorithm, uniform samplers and a polar
Box-Muller rejection loop.

Modelling conventions:
* `unsigned long` / `unsigned long long` values are modelled as `ℕ`; the single
  arithmetic site where the 64-bit width of `unsigned long long` matters
  (`a * inv + b` in `ICG::rand`) carries an explicit `% 2 ^ 64`.
* `double` values are modelled as `ℚ` with exact arithmetic.  Every claim settled
  over this model depends only on exact comparisons with `0`, `1` and the
  rejection threshold, not on rounding behaviour.
* Loops are embedded as structurally recursive functions on a fuel argument; at
  every call site the fuel supplied is proved (or obviously) sufficient, so the
  fuel-exhausted branch is unreachable there.
-/

namespace ICG

/-- The trial-division loop of `ICG::isPrime`:
`while ( cur <= max ) { if ( pr % cur == 0 ) return false; cur += 2; }  return true;`.
Fuel-indexed; each iteration increases `cur` by `2`, so `mx` iterations always
suffice from any start. -/
def trialDiv : ℕ → ℕ → ℕ → ℕ → Bool
  | 0, _, _, _ => true
  | fuel + 1, pr, cur, mx =>
      if cur ≤ mx then
        if pr % cur = 0 then false else trialDiv fuel pr (cur + 2) mx
      else true

/-- Largest `k ≤ c` with `k * k ≤ n` (and `0` if there is none); auxiliary for
`isqrt`. -/
def isqrtAux : ℕ → ℕ → ℕ
  | 0, _ => 0
  | c + 1, n => if (c + 1) * (c + 1) ≤ n then c + 1 else isqrtAux c n

/-- Floor of the square root, as a kernel-reducible function; proved equal to
`Nat.sqrt` below (`isqrt_eq_sqrt`). -/
def isqrt (n : ℕ) : ℕ := isqrtAux n n

/-- `ICG::isPrime`.  The bound `max = ( unsigned long ) ( sqrt ( pr ) )` of the
source is modelled as `isqrt pr = Nat.sqrt pr` (the floor of the real square
root, which is what the double-precision `sqrt` followed by the truncating cast
computes on the supported range of moduli).  The top-level fuel `pr` strictly
dominates the number of loop iterations. -/
def isPrime (pr : ℕ) : Bool :=
  if pr = 0 ∨ pr = 1 then false
  else if pr = 2 ∨ pr = 3 then true
  else if pr % 2 = 0 then false
  else trialDiv pr pr 3 (isqrt pr)

/-- The `while ( rn2 != 0 )` loop of `ICG::inverse` (extended Euclidean
algorithm).  `rn`/`rn1` are the current remainder pair and `Rn2`/`Rn1` the
signed Bezout coefficients of `y` for them.  The body recomputes
`rn2 = rn % rn1` and `Rn = Rn2 - q * Rn1`, exits returning `Rn1` when
`rn2 == 0`, and otherwise shifts the window.  Fuel-indexed: `rn1` strictly
decreases on every recursive call, so fuel `rn1 + 1` suffices.  The `rn1 = 0`
guard is unreachable from `inverse` (there `0 < rn1` throughout). -/
def euclidLoop : ℕ → ℕ → ℕ → ℤ → ℤ → ℤ
  | 0, _, _, _, Rn1 => Rn1
  | fuel + 1, rn, rn1, Rn2, Rn1 =>
      if rn1 = 0 then Rn1
      else
        if rn % rn1 = 0 then Rn1
        else euclidLoop fuel rn1 (rn % rn1) Rn1 (Rn2 - ((rn / rn1 : ℕ) : ℤ) * Rn1)

/-- The normalisation loop of `ICG::inverse`:
`while ( Rn1 < 0 ) Rn1 += p;`.  Fuel-indexed; at the call site the argument is
proved to lie in `(-p, p)`, so one iteration at most is taken and any positive
fuel suffices. -/
def addPWhileNeg : ℕ → ℕ → ℤ → ℤ
  | 0, _, z => z
  | fuel + 1, p, z => if z < 0 then addPWhileNeg fuel p (z + (p : ℤ)) else z

/-- `ICG::inverse`: modular inverse of `y` in `Z/pZ` by the extended Euclidean
algorithm, with the source's early returns for `y == 0`, `y == 1` and `y >= p`,
and the final cast `( unsigned long ) Rn1` modelled by `Int.toNat` (the
normalisation loop has made the value non-negative). -/
def inverse (p y : ℕ) : ℕ :=
  if y = 0 then 0
  else if y = 1 then 1
  else if p ≤ y then 0
  else (addPWhileNeg (p + 1) p (euclidLoop (y + 1) p y 0 1)).toNat

/-- `ICG::checkGeneratorIsValid`, as the pure predicate it computes and stores:
`( p > 3 ) && isPrime ( p ) && ( a < p ) && ( b < p ) && ( seed < p )`. -/
def checkGeneratorIsValid (p a b seed : ℕ) : Bool :=
  decide (3 < p) && isPrime p && decide (a < p) && decide (b < p) && decide (seed < p)

/-- The fields of class `ICG` (`ICG.h`): the validity flag, the parameters
`p, a, b, seed`, the current field value `curRand`, and the Box-Muller spare
slot `mullerNormal` / `useMullerNormal`. -/
structure State where
  generatorIsValid : Bool
  p : ℕ
  a : ℕ
  b : ℕ
  seed : ℕ
  curRand : ℕ
  mullerNormal : ℚ
  useMullerNormal : Bool
deriving DecidableEq

/-- The constructor `ICG::ICG`: initialises the parameter fields, sets
`curRand = seed`, and computes the validity flag via `checkGeneratorIsValid`.
The C++ constructor never initialises `mullerNormal` / `useMullerNormal` (their
values are indeterminate); the arguments `mn0` / `umn0` stand for those
indeterminate initial contents. -/
def construct (p a b seed : ℕ) (mn0 : ℚ) (umn0 : Bool) : State :=
  { generatorIsValid := checkGeneratorIsValid p a b seed
    p := p, a := a, b := b, seed := seed, curRand := seed
    mullerNormal := mn0, useMullerNormal := umn0 }

/-- `ICG::reparametrize`: overwrites `p, a, b, seed`, sets `curRand = seed`,
recomputes the validity flag from the new fields, and returns it.  No other
field is touched. -/
def reparametrize (g : State) (p a b seed : ℕ) : Bool × State :=
  let g' := { g with generatorIsValid := checkGeneratorIsValid p a b seed
                     p := p, a := a, b := b, seed := seed, curRand := seed }
  (g'.generatorIsValid, g')

/-- `ICG::reseed`: overwrites `seed`, sets `curRand = seed`, recomputes the
validity flag from `(p, a, b, newSeed)`, and returns it.  No other field is
touched. -/
def reseed (g : State) (newSeed : ℕ) : Bool × State :=
  let g' := { g with generatorIsValid := checkGeneratorIsValid g.p g.a g.b newSeed
                     seed := newSeed, curRand := newSeed }
  (g'.generatorIsValid, g')

/-- `ICG::rand ( )`, the step of the state machine.  The intermediate
`a * inv + b` is computed in `unsigned long long`, i.e. modulo `2 ^ 64`, before
the `% p` reduction; the final cast of `temp < p` back to `unsigned long` is
lossless. -/
def rand (g : State) : ℕ × State :=
  if g.generatorIsValid = false then (0, g)
  else if g.curRand = 0 then (g.b, { g with curRand := g.b })
  else
    let inv := inverse g.p g.curRand
    let temp := (g.a * inv + g.b) % 2 ^ 64 % g.p
    (temp, { g with curRand := temp })

/-- `ICG::rand01`: `( double ) rand ( ) / ( double ) p`, with the division
modelled exactly in `ℚ`. -/
def rand01 (g : State) : ℚ × State :=
  if g.generatorIsValid = false then (0, g)
  else
    let r := rand g
    ((r.1 : ℚ) / (g.p : ℚ), r.2)

/-- `ICG::rand ( range )`: `( unsigned long ) ( rand01 ( ) * range )`; the
truncating cast of a non-negative value is the floor. -/
def randRange (g : State) (range : ℕ) : ℕ × State :=
  let u := rand01 g
  ((Int.floor (u.1 * (range : ℚ))).toNat, u.2)

/-- `ICG::randInterval`: returns `0` on an invalid generator, returns `A`
exactly (without drawing) when `B == A`, otherwise orders the endpoints and
returns `( rand ( ) / p ) * ( B - A ) + A` over the ordered pair. -/
def randInterval (g : State) (A B : ℚ) : ℚ × State :=
  if g.generatorIsValid = false then (0, g)
  else if B = A then (A, g)
  else
    let lo := if B < A then B else A
    let hi := if B < A then A else B
    let r := rand g
    (((r.1 : ℚ) / (g.p : ℚ)) * (hi - lo) + lo, r.2)

/-- The rejection threshold `EPS = 0.0001` of `ICG::randStdNorm`, modelled as
the exact rational (the nearest double differs from it by less than `2 ^ (-60)`;
every comparison proved below is strict enough not to depend on that). -/
def EPS : ℚ := 1 / 10000

/-- One iteration of the Box-Muller rejection loop body: two draws
`u1 = randInterval ( -1.0, 1.0 )`, `u2 = randInterval ( -1.0, 1.0 )` threaded
through the state. -/
def bmIter (g : State) : ℚ × ℚ × State :=
  let d1 := randInterval g (-1) 1
  let d2 := randInterval d1.2 (-1) 1
  (d1.1, d2.1, d2.2)

/-- The `do { ... } while ( q <= EPS || q > 1.0 )` rejection loop of
`ICG::randStdNorm`, fuel-indexed: `some (u1, u2, g')` is the accepted draw and
post-loop state, reached within `fuel` iterations; `none` means no iteration
among the first `fuel` accepted. -/
def bmLoop : ℕ → State → Option (ℚ × ℚ × State)
  | 0, _ => none
  | fuel + 1, g =>
      let t := bmIter g
      let q := t.1 * t.1 + t.2.1 * t.2.1
      if q ≤ EPS ∨ 1 < q then bmLoop fuel t.2.2 else some t

/-- Observable outcome of a call to `ICG::randStdNorm`. -/
inductive StdNormResult where
  /-- The cached spare was returned (flag cleared): value and post-state. -/
  | spare (v : ℚ) (g : State)
  /-- The rejection loop accepted `(u1, u2)`.  The C++ call then returns
  `r * u1` and caches `r * u2` with `r = sqrt ( -2.0 * log ( q ) / q )`; those
  two real values lie outside the exact `ℚ` value model and no claim settled
  here depends on them, so only the accepted pair, the post-loop state and the
  raised flag are recorded. -/
  | accepted (u1 u2 : ℚ) (g : State)
  /-- No iteration within the given fuel accepted; if this holds for every
  fuel, the C++ call never returns. -/
  | loops
deriving DecidableEq

/-- `ICG::randStdNorm`, up to the real-valued output (see `StdNormResult`).
Note the source checks the spare flag before any validity guard. -/
def randStdNorm (fuel : ℕ) (g : State) : StdNormResult :=
  if g.useMullerNormal then .spare g.mullerNormal { g with useMullerNormal := false }
  else
    match bmLoop fuel g with
    | none => .loops
    | some (u1, u2, g') => .accepted u1 u2 { g' with useMullerNormal := true }

/-- Outputs of `n` successive calls to `ICG::rand ( )`. -/
def randSeq (g : State) : ℕ → List ℕ
  | 0 => []
  | n + 1 => (rand g).1 :: randSeq (rand g).2 n

/-- Flag-correctness: the stored validity flag agrees with
`checkGeneratorIsValid` on the stored parameters.  Established by the
constructor and preserved by every operation (`construct_WF`, `rand_WF`, ...);
"valid generator" in the claims means a reachable state with the flag set. -/
abbrev WF (g : State) : Prop :=
  g.generatorIsValid = checkGeneratorIsValid g.p g.a g.b g.seed

/-- Binary modular exponentiation, fuel-indexed (kernel-reducible); proof tool
for certifying the primality of moduli too large for trial-division
evaluation.  Not part of the embedded source. -/
def powModAux : ℕ → ℕ → ℕ → ℕ → ℕ
  | 0, p, _, _ => 1 % p
  | fuel + 1, p, a, n =>
      if n = 0 then 1 % p
      else
        let h := powModAux fuel p a (n / 2)
        if n % 2 = 0 then h * h % p else h * h % p * a % p

/-- `powMod p a n = a ^ n % p` for every `n < 2 ^ 64`. -/
def powMod (p a n : ℕ) : ℕ := powModAux 64 p a n

/-- Concrete generator `ICG ( 7, 3, 2, 1 )` used by several witnesses. -/
def g7 : State := construct 7 3 2 1 0 false

/-- Concrete valid generator with `p = 4294967311 > 2 ^ 32` exhibiting the
64-bit wrap-around of the intermediate product. -/
def gBig : State := construct 4294967311 4294967310 0 4294967310 0 false

/-- The fields of the state that `rand` reads and writes (everything except the
stored seed and the Box-Muller slot). -/
abbrev obsEq (g1 g2 : State) : Prop :=
  g1.generatorIsValid = g2.generatorIsValid ∧ g1.p = g2.p ∧ g1.a = g2.a ∧
  g1.b = g2.b ∧ g1.curRand = g2.curRand

/-- Concrete invalid generator `ICG ( 9, 2, 3, 4 )` (`9` is composite). -/
def g9 : State := construct 9 2 3 4 0 false

/-- Concrete valid but degenerate generator `ICG ( 5, 0, 0, 0 )`: every
`rand ( )` returns `0`, so every uniform draw on `[-1, 1)` is exactly `-1`. -/
def gdeg : State := construct 5 0 0 0 0 false

end ICG

namespace ICG

theorem isqrtAux_eq (n : ℕ) : ∀ c, Nat.sqrt n ≤ c → isqrtAux c n = Nat.sqrt n := by
  intro c
  induction c with
  | zero =>
      intro h
      simp only [isqrtAux]
      omega
  | succ c ih =>
      intro h
      simp only [isqrtAux]
      by_cases h1 : (c + 1) * (c + 1) ≤ n
      · rw [if_pos h1]
        exact le_antisymm (Nat.le_sqrt.mpr h1) h
      · rw [if_neg h1]
        have : Nat.sqrt n < c + 1 := Nat.sqrt_lt.mpr (by omega)
        exact ih (by omega)

theorem isqrt_eq_sqrt (n : ℕ) : isqrt n = Nat.sqrt n :=
  isqrtAux_eq n n (Nat.sqrt_le_self n)

theorem trialDiv_false_iff (pr mx : ℕ) :
    ∀ fuel cur, mx + 2 ≤ fuel + cur →
      (trialDiv fuel pr cur mx = false ↔
        ∃ k, cur + 2 * k ≤ mx ∧ pr % (cur + 2 * k) = 0) := by
  intro fuel
  induction fuel with
  | zero =>
      intro cur h
      simp only [trialDiv]
      constructor
      · intro hf; cases hf
      · rintro ⟨k, hk, -⟩; omega
  | succ f ih =>
      intro cur h
      simp only [trialDiv]
      by_cases h1 : cur ≤ mx
      · rw [if_pos h1]
        by_cases h2 : pr % cur = 0
        · rw [if_pos h2]
          constructor
          · intro _
            exact ⟨0, by omega, by simpa using h2⟩
          · intro _; rfl
        · rw [if_neg h2]
          rw [ih (cur + 2) (by omega)]
          constructor
          · rintro ⟨k, hk, hd⟩
            refine ⟨k + 1, by omega, ?_⟩
            have e : cur + 2 * (k + 1) = cur + 2 + 2 * k := by omega
            rw [e]; exact hd
          · rintro ⟨k, hk, hd⟩
            cases k with
            | zero => exact absurd (by simpa using hd) h2
            | succ k =>
                refine ⟨k, by omega, ?_⟩
                have e : cur + 2 + 2 * k = cur + 2 * (k + 1) := by omega
                rw [e]; exact hd
      · rw [if_neg h1]
        constructor
        · intro hf; cases hf
        · rintro ⟨k, hk, -⟩; omega

theorem isPrime_iff (n : ℕ) : isPrime n = true ↔ n.Prime := by
  rcases le_or_lt n 4 with h4 | h4
  · interval_cases n <;> decide
  · by_cases he : n % 2 = 0
    · have h1 : isPrime n = false := by
        unfold isPrime
        rw [if_neg (by omega), if_neg (by omega), if_pos he]
      rw [h1]
      simp only [Bool.false_eq_true, false_iff]
      intro hp
      have h2 : (2 : ℕ) ∣ n := Nat.dvd_of_mod_eq_zero he
      rcases hp.eq_one_or_self_of_dvd 2 h2 with h | h <;> omega
    · have h1 : isPrime n = trialDiv n n 3 (isqrt n) := by
        unfold isPrime
        rw [if_neg (by omega), if_neg (by omega), if_neg he]
      rw [h1, isqrt_eq_sqrt]
      have hsq := Nat.sqrt_le_self n
      have hspec := trialDiv_false_iff n (Nat.sqrt n) n 3 (by omega)
      constructor
      · intro ht
        rw [Nat.prime_def_le_sqrt]
        refine ⟨by omega, ?_⟩
        intro m hm2 hmsqrt hdvd
        have hnok : ¬ ∃ k, 3 + 2 * k ≤ Nat.sqrt n ∧ n % (3 + 2 * k) = 0 := by
          rw [← hspec, ht]
          simp
        have hmodd : m % 2 = 1 := by
          rcases Nat.mod_two_eq_zero_or_one m with h | h
          · exfalso
            have h2n : (2 : ℕ) ∣ n := dvd_trans (Nat.dvd_of_mod_eq_zero h) hdvd
            have : n % 2 = 0 := Nat.dvd_iff_mod_eq_zero.mp h2n
            omega
          · exact h
        have hm3 : 3 ≤ m := by omega
        refine hnok ⟨(m - 3) / 2, ?_, ?_⟩
        · omega
        · have e : 3 + 2 * ((m - 3) / 2) = m := by omega
          rw [e]
          exact Nat.dvd_iff_mod_eq_zero.mp hdvd
      · intro hp
        cases ht : trialDiv n n 3 (Nat.sqrt n) with
        | false =>
            exfalso
            obtain ⟨k, hk, hd⟩ := hspec.mp ht
            have hdvd : (3 + 2 * k) ∣ n := Nat.dvd_of_mod_eq_zero hd
            have hlt : 3 + 2 * k < n := lt_of_le_of_lt hk (Nat.sqrt_lt_self (by omega))
            rcases hp.eq_one_or_self_of_dvd _ hdvd with h | h <;> omega
        | true => rfl

end ICG

namespace ICG

/-- Loop invariant of the extended Euclidean loop.  Throughout:
`Rn1`/`Rn2` are Bezout coefficients of `y` for `rn1`/`rn` modulo `p`, they have
opposite signs, `Rn1` is nonzero, and `rn * |Rn1| + rn1 * |Rn2| = p`.  The loop
returns a nonzero coefficient `R` of the gcd with `2 * |R| ≤ p`. -/
theorem euclidLoop_spec (p y : ℕ) :
    ∀ fuel rn rn1 (Rn2 Rn1 : ℤ),
      rn1 ≤ fuel → 0 < rn1 → rn1 < rn →
      Nat.gcd rn rn1 = Nat.gcd p y →
      Rn1 * (y : ℤ) ≡ (rn1 : ℤ) [ZMOD (p : ℤ)] →
      Rn2 * (y : ℤ) ≡ (rn : ℤ) [ZMOD (p : ℤ)] →
      (rn : ℤ) * |Rn1| + (rn1 : ℤ) * |Rn2| = (p : ℤ) →
      Rn1 ≠ 0 → Rn1 * Rn2 ≤ 0 →
      (euclidLoop fuel rn rn1 Rn2 Rn1) * (y : ℤ) ≡ (Nat.gcd p y : ℤ) [ZMOD (p : ℤ)] ∧
      euclidLoop fuel rn rn1 Rn2 Rn1 ≠ 0 ∧
      2 * |euclidLoop fuel rn rn1 Rn2 Rn1| ≤ (p : ℤ) := by
  intro fuel
  induction fuel with
  | zero =>
      intro rn rn1 Rn2 Rn1 hfuel h1 _ _ _ _ _ _ _
      exact absurd (lt_of_lt_of_le h1 hfuel) (Nat.not_lt_zero 0)
  | succ f ih =>
      intro rn rn1 Rn2 Rn1 hfuel h1 hlt hgcd hc1 hc2 habs hne hsign
      have hrn1 : ¬ rn1 = 0 := by omega
      simp only [euclidLoop, if_neg hrn1]
      by_cases h2 : rn % rn1 = 0
      · rw [if_pos h2]
        have hg : Nat.gcd rn rn1 = rn1 := by
          have h := Nat.gcd_rec rn1 rn
          rw [h2, Nat.gcd_zero_left] at h
          rw [Nat.gcd_comm, h]
        have hgy : (Nat.gcd p y : ℤ) = (rn1 : ℤ) := by
          rw [← hgcd, hg]
        refine ⟨by rw [hgy]; exact hc1, hne, ?_⟩
        have h2rn : (2 : ℤ) ≤ (rn : ℤ) := by exact_mod_cast (show 2 ≤ rn by omega)
        have ha1 : (1 : ℤ) ≤ |Rn1| := Int.one_le_abs hne
        have ha2 : (0 : ℤ) ≤ |Rn2| := abs_nonneg _
        have hr1 : (0 : ℤ) ≤ (rn1 : ℤ) := by positivity
        nlinarith [habs]
      · rw [if_neg h2]
        have hr2lt : rn % rn1 < rn1 := Nat.mod_lt _ (by omega)
        have hq1 : 1 ≤ rn / rn1 := (Nat.one_le_div_iff (by omega)).mpr (by omega)
        have hdm : rn1 * (rn / rn1) + rn % rn1 = rn := Nat.div_add_mod rn rn1
        have hdmZ : (rn1 : ℤ) * ((rn / rn1 : ℕ) : ℤ) + ((rn % rn1 : ℕ) : ℤ) = (rn : ℤ) := by
          exact_mod_cast hdm
        have hQ1 : (1 : ℤ) ≤ ((rn / rn1 : ℕ) : ℤ) := by exact_mod_cast hq1
        have ha1 : (1 : ℤ) ≤ |Rn1| := Int.one_le_abs hne
        -- the new Bezout coefficient and its congruence
        have hc1' : (Rn2 - ((rn / rn1 : ℕ) : ℤ) * Rn1) * (y : ℤ) ≡ ((rn % rn1 : ℕ) : ℤ)
            [ZMOD (p : ℤ)] := by
          have e1 : (Rn2 - ((rn / rn1 : ℕ) : ℤ) * Rn1) * (y : ℤ)
              = Rn2 * (y : ℤ) - ((rn / rn1 : ℕ) : ℤ) * (Rn1 * (y : ℤ)) := by ring
          have e2 : ((rn % rn1 : ℕ) : ℤ)
              = (rn : ℤ) - ((rn / rn1 : ℕ) : ℤ) * (rn1 : ℤ) := by linarith
          rw [e1, e2]
          exact hc2.sub (hc1.mul_left _)
        -- the absolute-value identity
        have habs_key : |Rn2 - ((rn / rn1 : ℕ) : ℤ) * Rn1| = |Rn2| + ((rn / rn1 : ℕ) : ℤ) * |Rn1| := by
          rcases hne.lt_or_lt with hneg | hpos
          · have hR2 : 0 ≤ Rn2 := by nlinarith
            have : 0 ≤ Rn2 - ((rn / rn1 : ℕ) : ℤ) * Rn1 := by nlinarith
            rw [abs_of_nonneg this, abs_of_nonneg hR2, abs_of_neg hneg]
            ring
          · have hR2 : Rn2 ≤ 0 := by nlinarith
            have : Rn2 - ((rn / rn1 : ℕ) : ℤ) * Rn1 ≤ 0 := by nlinarith
            rw [abs_of_nonpos this, abs_of_nonpos hR2, abs_of_pos hpos]
            ring
        have habs' : (rn1 : ℤ) * |Rn2 - ((rn / rn1 : ℕ) : ℤ) * Rn1|
            + ((rn % rn1 : ℕ) : ℤ) * |Rn1| = (p : ℤ) := by
          rw [habs_key]
          linear_combination habs + |Rn1| * hdmZ
        have hne' : Rn2 - ((rn / rn1 : ℕ) : ℤ) * Rn1 ≠ 0 := by
          have habspos : 0 < |Rn2 - ((rn / rn1 : ℕ) : ℤ) * Rn1| := by
            rw [habs_key]
            have := abs_nonneg Rn2
            nlinarith
          exact abs_pos.mp habspos
        have hsign' : (Rn2 - ((rn / rn1 : ℕ) : ℤ) * Rn1) * Rn1 ≤ 0 := by
          rcases hne.lt_or_lt with hneg | hpos
          · have hR2 : 0 ≤ Rn2 := by nlinarith
            have hgez : 0 ≤ Rn2 - ((rn / rn1 : ℕ) : ℤ) * Rn1 := by nlinarith
            exact mul_nonpos_iff.mpr (Or.inl ⟨hgez, le_of_lt hneg⟩)
          · have hR2 : Rn2 ≤ 0 := by nlinarith
            have hlez : Rn2 - ((rn / rn1 : ℕ) : ℤ) * Rn1 ≤ 0 := by nlinarith
            exact mul_nonpos_iff.mpr (Or.inr ⟨hlez, le_of_lt hpos⟩)
        have hgcd' : Nat.gcd rn1 (rn % rn1) = Nat.gcd p y := by
          calc Nat.gcd rn1 (rn % rn1) = Nat.gcd (rn % rn1) rn1 := Nat.gcd_comm _ _
            _ = Nat.gcd rn1 rn := (Nat.gcd_rec rn1 rn).symm
            _ = Nat.gcd rn rn1 := Nat.gcd_comm _ _
            _ = Nat.gcd p y := hgcd
        exact ih rn1 (rn % rn1) Rn1 (Rn2 - ((rn / rn1 : ℕ) : ℤ) * Rn1)
          (by omega) (by omega) hr2lt hgcd' hc1' hc1 habs' hne' hsign'

end ICG

namespace ICG

theorem addPWhileNeg_of_nonneg (p : ℕ) (z : ℤ) (hz : 0 ≤ z) :
    ∀ fuel, addPWhileNeg fuel p z = z := by
  intro fuel
  cases fuel with
  | zero => rfl
  | succ f => simp only [addPWhileNeg, if_neg (not_lt.mpr hz)]

theorem addPWhileNeg_eval (p : ℕ) (z : ℤ) (hge : -(p : ℤ) ≤ z) :
    ∀ fuel, 1 ≤ fuel → addPWhileNeg fuel p z = if z < 0 then z + (p : ℤ) else z := by
  intro fuel hf
  cases fuel with
  | zero => omega
  | succ f =>
      simp only [addPWhileNeg]
      by_cases hz : z < 0
      · rw [if_pos hz, if_pos hz]
        exact addPWhileNeg_of_nonneg p (z + (p : ℤ)) (by linarith) f
      · rw [if_neg hz, if_neg hz]

/-- Core correctness of `inverse` on the Euclidean path `2 ≤ y < p` (no
primality needed): the result is in `[1, p)` and is a Bezout coefficient of
`y` for `gcd p y` modulo `p`. -/
theorem inverse_main (p y : ℕ) (h2 : 2 ≤ y) (hyp : y < p) :
    1 ≤ inverse p y ∧ inverse p y < p ∧
    (y : ℤ) * (inverse p y : ℤ) ≡ (Nat.gcd p y : ℤ) [ZMOD (p : ℤ)] := by
  have e : inverse p y = (addPWhileNeg (p + 1) p (euclidLoop (y + 1) p y 0 1)).toNat := by
    unfold inverse
    rw [if_neg (by omega), if_neg (by omega), if_neg (by omega)]
  obtain ⟨hcong, hRne, hRbound⟩ :=
    euclidLoop_spec p y (y + 1) p y 0 1 (by omega) (by omega) hyp rfl
      (by rw [one_mul])
      (by rw [zero_mul]; exact Int.ModEq.symm (Int.modEq_iff_dvd.mpr (by simp)))
      (by simp)
      one_ne_zero
      (by simp)
  set R := euclidLoop (y + 1) p y 0 1 with hR
  have habsR : -(p : ℤ) ≤ R := by
    have h1 := abs_nonneg R
    have h2 := neg_abs_le R
    linarith
  have hfe : addPWhileNeg (p + 1) p R = if R < 0 then R + (p : ℤ) else R :=
    addPWhileNeg_eval p R habsR (p + 1) (by omega)
  have hp3 : 3 ≤ p := by omega
  have hz : 1 ≤ (if R < 0 then R + (p : ℤ) else R) ∧
      (if R < 0 then R + (p : ℤ) else R) < (p : ℤ) := by
    rcases lt_or_le R 0 with hneg | hpos
    · rw [if_pos hneg]
      rw [abs_of_neg hneg] at hRbound
      constructor <;> [omega; omega]
    · rw [if_neg (not_lt.mpr hpos)]
      rw [abs_of_nonneg hpos] at hRbound
      constructor <;> [omega; omega]
  have hzmod : (if R < 0 then R + (p : ℤ) else R) ≡ R [ZMOD (p : ℤ)] := by
    rcases lt_or_le R 0 with hneg | hpos
    · rw [if_pos hneg]
      exact (Int.modEq_iff_dvd.mpr (by simp)).symm
    · rw [if_neg (not_lt.mpr hpos)]
  rw [e, hfe]
  set z := if R < 0 then R + (p : ℤ) else R with hzdef
  have hz0 : 0 ≤ z := by omega
  have htn : (z.toNat : ℤ) = z := Int.toNat_of_nonneg hz0
  refine ⟨by omega, by omega, ?_⟩
  have : (z.toNat : ℤ) * (y : ℤ) ≡ (Nat.gcd p y : ℤ) [ZMOD (p : ℤ)] := by
    rw [htn]
    exact (hzmod.mul_right (y : ℤ)).trans hcong
  calc (y : ℤ) * (z.toNat : ℤ) = (z.toNat : ℤ) * (y : ℤ) := by ring
    _ ≡ (Nat.gcd p y : ℤ) [ZMOD (p : ℤ)] := this

/-- `inverse` always returns a value below `p` (any `p ≥ 2`, any `y`). -/
theorem inverse_lt (p y : ℕ) (hp : 2 ≤ p) : inverse p y < p := by
  by_cases h0 : y = 0
  · rw [h0]; unfold inverse; rw [if_pos rfl]; omega
  · by_cases h1 : y = 1
    · rw [h1]; unfold inverse
      rw [if_neg (by omega), if_pos rfl]; omega
    · by_cases hge : p ≤ y
      · unfold inverse
        rw [if_neg h0, if_neg h1, if_pos hge]; omega
      · exact (inverse_main p y (by omega) (by omega)).2.1

end ICG

namespace ICG

/-- C2: for every prime `p ≥ 5` and every `y` with `1 ≤ y < p`, `inverse p y`
is the unique `z ∈ [1, p)` with `y * z ≡ 1 (mod p)`; out of contract,
`inverse p 0 = 0`, `inverse p 1 = 1` and `inverse p y = 0` for `y ≥ p`; the
returned value is always in `[0, p)`. -/
theorem C2_inverse_spec (p : ℕ) (hp : Nat.Prime p) (hp5 : 5 ≤ p) :
    (∀ y, 1 ≤ y → y < p →
        (1 ≤ inverse p y ∧ inverse p y < p) ∧
        (y * inverse p y) % p = 1 ∧
        (∀ z, 1 ≤ z → z < p → (y * z) % p = 1 → z = inverse p y)) ∧
    inverse p 0 = 0 ∧ inverse p 1 = 1 ∧
    (∀ y, p ≤ y → inverse p y = 0) ∧
    (∀ y, inverse p y < p) := by
  have hmain : ∀ y, 1 ≤ y → y < p →
      (1 ≤ inverse p y ∧ inverse p y < p) ∧ (y * inverse p y) % p = 1 := by
    intro y h1 hylt
    by_cases hy1 : y = 1
    · subst hy1
      have e : inverse p 1 = 1 := by
        unfold inverse
        rw [if_neg (by omega), if_pos rfl]
      rw [e]
      exact ⟨⟨le_refl 1, by omega⟩, by rw [Nat.mod_eq_of_lt (by omega)]⟩
    · have h2 : 2 ≤ y := by omega
      obtain ⟨hlo, hhi, hcong⟩ := inverse_main p y h2 hylt
      have hcop : Nat.gcd p y = 1 :=
        (Nat.Prime.coprime_iff_not_dvd hp).mpr (Nat.not_dvd_of_pos_of_lt (by omega) hylt)
      rw [hcop] at hcong
      have hnat : (y * inverse p y) ≡ 1 [MOD p] := by
        rw [← Int.natCast_modEq_iff]
        push_cast
        exact hcong
      refine ⟨⟨hlo, hhi⟩, ?_⟩
      have := hnat
      unfold Nat.ModEq at this
      rwa [Nat.mod_eq_of_lt (show 1 < p by omega)] at this
  refine ⟨?_, ?_, ?_, ?_, fun y => inverse_lt p y (by omega)⟩
  · intro y h1 hylt
    refine ⟨(hmain y h1 hylt).1, (hmain y h1 hylt).2, ?_⟩
    intro z hz1 hzlt hzprod
    have hinv := (hmain y h1 hylt).2
    have hcopy : Nat.gcd p y = 1 :=
      (Nat.Prime.coprime_iff_not_dvd hp).mpr (Nat.not_dvd_of_pos_of_lt (by omega) hylt)
    have hmod : y * z ≡ y * inverse p y [MOD p] := by
      unfold Nat.ModEq
      rw [hzprod, hinv]
    have hzi : z ≡ inverse p y [MOD p] := Nat.ModEq.cancel_left_of_coprime hcopy hmod
    have := hzi
    unfold Nat.ModEq at this
    rw [Nat.mod_eq_of_lt hzlt, Nat.mod_eq_of_lt (hmain y h1 hylt).1.2] at this
    exact this
  · unfold inverse; rw [if_pos rfl]
  · unfold inverse; rw [if_neg (by omega), if_pos rfl]
  · intro y hge
    unfold inverse
    rw [if_neg (by omega), if_neg (by omega), if_pos hge]

/-- Witness for C2 at `p = 7`, `y = 3` (`inverse 7 3 = 5`, `3 * 5 ≡ 1 mod 7`). -/
theorem C2_witness : inverse 7 3 = 5 ∧ (3 * inverse 7 3) % 7 = 1 :=
  ⟨by decide,
   ((C2_inverse_spec 7 (by norm_num) (by norm_num)).1 3 (by norm_num) (by norm_num)).2.1⟩

/-- C5: the validity predicate holds iff `p > 3`, `p` prime, `a < p`, `b < p`,
`seed < p`; the primality test returns false for `0`, `1`, true for `2`, `3`,
false for even inputs other than `2`, and agrees with mathematical primality. -/
theorem C5_validity (p a b s : ℕ) :
    (checkGeneratorIsValid p a b s = true ↔
      3 < p ∧ p.Prime ∧ a < p ∧ b < p ∧ s < p) ∧
    (isPrime 0 = false ∧ isPrime 1 = false ∧ isPrime 2 = true ∧ isPrime 3 = true) ∧
    (∀ n, n % 2 = 0 → n ≠ 2 → isPrime n = false) ∧
    (∀ n, isPrime n = true ↔ n.Prime) := by
  refine ⟨?_, ⟨by decide, by decide, by decide, by decide⟩, ?_, fun n => isPrime_iff n⟩
  · unfold checkGeneratorIsValid
    simp only [Bool.and_eq_true, decide_eq_true_eq, isPrime_iff]
    tauto
  · intro n hev hne2
    by_cases h0 : n = 0
    · subst h0; decide
    · have h4 : 4 ≤ n := by omega
      unfold isPrime
      rw [if_neg (by omega), if_neg (by omega), if_pos hev]

/-- Witness for C5: a concrete valid parameter set, a concrete even composite,
and a concrete odd prime. -/
theorem C5_witness :
    checkGeneratorIsValid 7 3 2 1 = true ∧ isPrime 10 = false ∧ isPrime 101 = true :=
  ⟨(C5_validity 7 3 2 1).1.mpr (by norm_num),
   (C5_validity 7 3 2 1).2.2.1 10 (by norm_num) (by norm_num),
   ((C5_validity 7 3 2 1).2.2.2 101).mpr (by norm_num)⟩

end ICG

namespace ICG



theorem powModAux_eq : ∀ fuel p a n, 0 < p → n < 2 ^ fuel →
    powModAux fuel p a n = a ^ n % p := by
  intro fuel
  induction fuel with
  | zero =>
      intro p a n hp hn
      have : n = 0 := by simpa using hn
      subst this
      simp [powModAux]
  | succ f ih =>
      intro p a n hp hn
      by_cases h0 : n = 0
      · subst h0
        simp [powModAux]
      · have hhalf : n / 2 < 2 ^ f := by
          have h2 : 2 ^ (f + 1) = 2 * 2 ^ f := by ring
          omega
        have hrec := ih p a (n / 2) hp hhalf
        simp only [powModAux, if_neg h0, hrec]
        by_cases he : n % 2 = 0
        · rw [if_pos he]
          rw [← Nat.mul_mod]
          rw [← pow_add]
          congr 2
          omega
        · rw [if_neg he]
          rw [← Nat.mul_mod, Nat.mod_mul_mod]
          rw [← pow_add, ← pow_succ]
          congr 2
          omega

theorem zmodPow_eq_one_iff (p a n : ℕ) (hp : 1 < p) (hn : n < 2 ^ 64) :
    (((a : ℕ) : ZMod p) ^ n = 1 ↔ powMod p a n = 1) := by
  have e1 : ((a : ℕ) : ZMod p) ^ n = ((a ^ n : ℕ) : ZMod p) := by push_cast; rfl
  have e2 : (1 : ZMod p) = ((1 : ℕ) : ZMod p) := by push_cast; rfl
  rw [e1, e2, ZMod.natCast_eq_natCast_iff']
  rw [Nat.mod_eq_of_lt hp]
  unfold powMod
  rw [powModAux_eq 64 p a n (by omega) hn]

/-- Lucas certificate for the modulus used in the 64-bit wrap-around
counterexample: `4294967311` is the smallest prime above `2 ^ 32`, with
`4294967310 = 2 * 3 ^ 2 * 5 * 131 * 364289` and primitive root `3`. -/
theorem prime_4294967311 : Nat.Prime 4294967311 := by
  apply lucas_primality 4294967311 ((3 : ℕ) : ZMod 4294967311)
  · exact (zmodPow_eq_one_iff 4294967311 3 4294967310 (by norm_num) (by norm_num)).mpr
      (by decide)
  · intro q hq hdvd
    have hdvd' : q ∣ 2 * (3 ^ 2 * (5 * (131 * 364289))) := by
      have hfact : (4294967311 : ℕ) - 1 = 2 * (3 ^ 2 * (5 * (131 * 364289))) := by norm_num
      rwa [hfact] at hdvd
    rcases (Nat.Prime.dvd_mul hq).mp hdvd' with h | h
    · have hq2 : q = 2 := (Nat.prime_dvd_prime_iff_eq hq (by norm_num)).mp h
      subst hq2
      intro hone
      exact absurd
        ((zmodPow_eq_one_iff 4294967311 3 2147483655 (by norm_num) (by norm_num)).mp hone)
        (by decide)
    rcases (Nat.Prime.dvd_mul hq).mp h with h | h
    · have hq3 : q = 3 :=
        (Nat.prime_dvd_prime_iff_eq hq (by norm_num)).mp (hq.dvd_of_dvd_pow h)
      subst hq3
      intro hone
      exact absurd
        ((zmodPow_eq_one_iff 4294967311 3 1431655770 (by norm_num) (by norm_num)).mp hone)
        (by decide)
    rcases (Nat.Prime.dvd_mul hq).mp h with h | h
    · have hq5 : q = 5 := (Nat.prime_dvd_prime_iff_eq hq (by norm_num)).mp h
      subst hq5
      intro hone
      exact absurd
        ((zmodPow_eq_one_iff 4294967311 3 858993462 (by norm_num) (by norm_num)).mp hone)
        (by decide)
    rcases (Nat.Prime.dvd_mul hq).mp h with h | h
    · have hq131 : q = 131 := (Nat.prime_dvd_prime_iff_eq hq (by norm_num)).mp h
      subst hq131
      intro hone
      exact absurd
        ((zmodPow_eq_one_iff 4294967311 3 32786010 (by norm_num) (by norm_num)).mp hone)
        (by decide)
    · have hqbig : q = 364289 := (Nat.prime_dvd_prime_iff_eq hq (by norm_num)).mp h
      subst hqbig
      intro hone
      exact absurd
        ((zmodPow_eq_one_iff 4294967311 3 11790 (by norm_num) (by norm_num)).mp hone)
        (by decide)

end ICG

namespace ICG

theorem construct_flag (p a b s : ℕ) (mn : ℚ) (um : Bool) :
    (construct p a b s mn um).generatorIsValid = checkGeneratorIsValid p a b s := rfl

theorem construct_WF (p a b s : ℕ) (mn : ℚ) (um : Bool) : WF (construct p a b s mn um) := rfl

theorem rand_invalid (g : State) (hflag : g.generatorIsValid = false) :
    rand g = (0, g) := by
  unfold rand
  rw [if_pos hflag]

theorem rand_zero (g : State) (hflag : g.generatorIsValid = true) (hcur : g.curRand = 0) :
    rand g = (g.b, { g with curRand := g.b }) := by
  unfold rand
  rw [if_neg (by rw [hflag]; simp), if_pos hcur]

theorem rand_formula (g : State) (hflag : g.generatorIsValid = true) (hcur : g.curRand ≠ 0) :
    rand g = ((g.a * inverse g.p g.curRand + g.b) % 2 ^ 64 % g.p,
      { g with curRand := (g.a * inverse g.p g.curRand + g.b) % 2 ^ 64 % g.p }) := by
  unfold rand
  rw [if_neg (by rw [hflag]; simp), if_neg hcur]

/-- A set validity flag certifies the parameter bounds (under flag-correctness). -/
theorem valid_bounds (g : State) (hWF : WF g) (hv : g.generatorIsValid = true) :
    3 < g.p ∧ g.p.Prime ∧ g.a < g.p ∧ g.b < g.p ∧ g.seed < g.p := by
  have hc : checkGeneratorIsValid g.p g.a g.b g.seed = true := by rw [← hWF]; exact hv
  unfold checkGeneratorIsValid at hc
  simp only [Bool.and_eq_true, decide_eq_true_eq, isPrime_iff] at hc
  tauto

/-- On the supported modulus range the intermediate sum stays below `2 ^ 64`. -/
theorem no_overflow (p a b i : ℕ) (hp : 2 ≤ p) (hP : p ≤ 2 ^ 32 - 1)
    (ha : a < p) (hb : b < p) (hi : i < p) : a * i + b < 2 ^ 64 := by
  have h1 : a * i + b ≤ (p - 1) * (p - 1) + (p - 1) :=
    add_le_add (Nat.mul_le_mul (by omega) (by omega)) (by omega)
  have h2 : (p - 1) * (p - 1) + (p - 1) ≤ (2 ^ 32 - 2) * (2 ^ 32 - 2) + (2 ^ 32 - 2) :=
    add_le_add (Nat.mul_le_mul (by omega) (by omega)) (by omega)
  calc a * i + b ≤ (p - 1) * (p - 1) + (p - 1) := h1
    _ ≤ (2 ^ 32 - 2) * (2 ^ 32 - 2) + (2 ^ 32 - 2) := h2
    _ < 2 ^ 64 := by norm_num

/-- C1 (amended): on a flag-correct generator, an invalid step returns `0` with
the state unchanged; a valid step from `current = 0` sets and returns `b < p`;
a valid step from `current ≠ 0` sets and returns
`((a * inverse current + b) mod 2 ^ 64) mod p`, which equals the mathematical
`(a * inverse current + b) mod p` whenever `p ≤ 2 ^ 32 - 1`; and every valid
step returns a value in `[0, p)`. -/
theorem C1_step (g : State) (hWF : WF g) :
    (g.generatorIsValid = false → rand g = (0, g)) ∧
    (g.generatorIsValid = true → g.curRand = 0 →
      rand g = (g.b, { g with curRand := g.b }) ∧ g.b < g.p) ∧
    (g.generatorIsValid = true → g.curRand ≠ 0 →
      rand g = ((g.a * inverse g.p g.curRand + g.b) % 2 ^ 64 % g.p,
        { g with curRand := (g.a * inverse g.p g.curRand + g.b) % 2 ^ 64 % g.p }) ∧
      (g.p ≤ 2 ^ 32 - 1 →
        (rand g).1 = (g.a * inverse g.p g.curRand + g.b) % g.p)) ∧
    (g.generatorIsValid = true → (rand g).1 < g.p) := by
  refine ⟨fun hf => rand_invalid g hf,
    fun hv hc => ⟨rand_zero g hv hc, (valid_bounds g hWF hv).2.2.2.1⟩,
    fun hv hc => ?_, fun hv => ?_⟩
  · obtain ⟨hp3, -, ha, hb, -⟩ := valid_bounds g hWF hv
    refine ⟨rand_formula g hv hc, fun hP => ?_⟩
    have hi : inverse g.p g.curRand < g.p := inverse_lt _ _ (by omega)
    have hlt := no_overflow g.p g.a g.b (inverse g.p g.curRand) (by omega) hP ha hb hi
    rw [rand_formula g hv hc]
    exact congrArg (· % g.p) (Nat.mod_eq_of_lt hlt)
  · obtain ⟨hp3, -, -, hb, -⟩ := valid_bounds g hWF hv
    by_cases hc : g.curRand = 0
    · rw [rand_zero g hv hc]
      exact hb
    · rw [rand_formula g hv hc]
      exact Nat.mod_lt _ (by omega)


/-- Witness for C1 at `g7`: the step from `current = 1` yields
`(3 * 1 + 2) mod 7 = 5` and stays below `p`. -/
theorem C1_witness : rand g7 = (5, { g7 with curRand := 5 }) ∧ (rand g7).1 < g7.p := by
  obtain ⟨-, -, h3, h4⟩ := C1_step g7 rfl
  refine ⟨?_, h4 (by decide)⟩
  rw [(h3 (by decide) (by decide)).1]
  decide


/-- Counterexample to C1 as stated: `gBig` is a valid, flag-correct generator
with `current = p - 1 ≠ 0`, but the step returns `4294967087`, whereas the
mathematical `(a * inverse ( current ) + b) mod p = (p - 1) ^ 2 mod p = 1`:
the 64-bit intermediate `(p - 1) ^ 2` wraps modulo `2 ^ 64`. -/
theorem C1_counterexample :
    WF gBig ∧ gBig.generatorIsValid = true ∧ gBig.curRand = 4294967310 ∧
    (rand gBig).1 = 4294967087 ∧
    (gBig.a * inverse gBig.p gBig.curRand + gBig.b) % gBig.p = 1 := by
  have hcheck : checkGeneratorIsValid 4294967311 4294967310 0 4294967310 = true := by
    unfold checkGeneratorIsValid
    rw [(isPrime_iff 4294967311).mpr prime_4294967311]
    decide
  have hflag : gBig.generatorIsValid = true := by
    unfold gBig
    rw [construct_flag]
    exact hcheck
  refine ⟨construct_WF 4294967311 4294967310 0 4294967310 0 false, hflag, rfl, ?_, by decide⟩
  rw [rand_formula gBig hflag (by decide)]
  decide

end ICG

namespace ICG

/-- C7: on a valid, flag-correct generator with `p ≤ 2 ^ 32 - 1` and
`current ≠ 0`, the 64-bit intermediate `a * inverse ( current ) + b` is exact
(no wrap-around modulo `2 ^ 64`), so the step result equals the mathematical
`(a * inverse ( current ) + b) mod p`. -/
theorem C7_no_wrap (g : State) (hWF : WF g) (hv : g.generatorIsValid = true)
    (hP : g.p ≤ 2 ^ 32 - 1) (hc : g.curRand ≠ 0) :
    g.a * inverse g.p g.curRand + g.b < 2 ^ 64 ∧
    (g.a * inverse g.p g.curRand + g.b) % 2 ^ 64 = g.a * inverse g.p g.curRand + g.b ∧
    (rand g).1 = (g.a * inverse g.p g.curRand + g.b) % g.p := by
  obtain ⟨hp3, -, ha, hb, -⟩ := valid_bounds g hWF hv
  have hi : inverse g.p g.curRand < g.p := inverse_lt _ _ (by omega)
  have hlt := no_overflow g.p g.a g.b (inverse g.p g.curRand) (by omega) hP ha hb hi
  refine ⟨hlt, Nat.mod_eq_of_lt hlt, ?_⟩
  rw [rand_formula g hv hc]
  exact congrArg (· % g.p) (Nat.mod_eq_of_lt hlt)

/-- Witness for C7 at `g7` (`p = 7 ≤ 2 ^ 32 - 1`, `current = 1`). -/
theorem C7_witness :
    g7.a * inverse g7.p g7.curRand + g7.b < 2 ^ 64 ∧
    (rand g7).1 = (g7.a * inverse g7.p g7.curRand + g7.b) % g7.p := by
  obtain ⟨h1, -, h3⟩ := C7_no_wrap g7 rfl (by decide) (by decide) (by decide)
  exact ⟨h1, h3⟩


theorem rand_congr (g1 g2 : State) (h : obsEq g1 g2) :
    (rand g1).1 = (rand g2).1 ∧ obsEq (rand g1).2 (rand g2).2 := by
  obtain ⟨hf, hp, ha, hb, hc⟩ := h
  by_cases hv : g1.generatorIsValid = false
  · rw [rand_invalid g1 hv, rand_invalid g2 (by rw [← hf]; exact hv)]
    exact ⟨rfl, hf, hp, ha, hb, hc⟩
  · have hv1 : g1.generatorIsValid = true := by
      cases hbool : g1.generatorIsValid
      · exact absurd hbool hv
      · rfl
    have hv2 : g2.generatorIsValid = true := by rw [← hf]; exact hv1
    by_cases hz : g1.curRand = 0
    · rw [rand_zero g1 hv1 hz, rand_zero g2 hv2 (by rw [← hc]; exact hz)]
      exact ⟨hb, hf, hp, ha, hb, hb⟩
    · rw [rand_formula g1 hv1 hz, rand_formula g2 hv2 (by rw [← hc]; exact hz)]
      rw [hp, ha, hb, hc]
      exact ⟨rfl, hf, rfl, rfl, rfl, rfl⟩

theorem randSeq_congr : ∀ n (g1 g2 : State), obsEq g1 g2 → randSeq g1 n = randSeq g2 n := by
  intro n
  induction n with
  | zero => intro g1 g2 _; rfl
  | succ m ih =>
      intro g1 g2 h
      obtain ⟨hhead, htail⟩ := rand_congr g1 g2 h
      simp only [randSeq]
      rw [hhead, ih _ _ htail]

/-- C8: reseeding a constructed generator to `s` makes every subsequent
`rand ( )` sequence identical to that of a freshly constructed generator with
seed `s` (whatever the indeterminate Box-Muller slots hold). -/
theorem C8_reseed_restart (p a b s0 s : ℕ) (mn mn' : ℚ) (um um' : Bool) (n : ℕ) :
    randSeq (reseed (construct p a b s0 mn um) s).2 n
      = randSeq (construct p a b s mn' um') n :=
  randSeq_congr n _ _ ⟨rfl, rfl, rfl, rfl, rfl⟩

/-- C9: on a valid generator, `randInterval` is symmetric in its endpoints
(identical value and identical post-state), and `randInterval ( A, A )`
returns exactly `A` without advancing the state. -/
theorem C9_interval (g : State) (hv : g.generatorIsValid = true) (A B : ℚ) :
    randInterval g A B = randInterval g B A ∧ randInterval g A A = (A, g) := by
  have hnf : ¬ g.generatorIsValid = false := by rw [hv]; simp
  constructor
  · rcases lt_trichotomy A B with h | h | h
    · unfold randInterval
      rw [if_neg hnf, if_neg hnf, if_neg h.ne', if_neg h.ne,
        if_neg (not_lt.mpr h.le), if_neg (not_lt.mpr h.le), if_pos h, if_pos h]
    · subst h
      rfl
    · unfold randInterval
      rw [if_neg hnf, if_neg hnf, if_neg h.ne, if_neg h.ne',
        if_pos h, if_pos h, if_neg (not_lt.mpr h.le), if_neg (not_lt.mpr h.le)]
  · unfold randInterval
    rw [if_neg hnf, if_pos rfl]

/-- Witness for C9 at `g7` with endpoints `2, 5` and `3, 3`. -/
theorem C9_witness :
    randInterval g7 2 5 = randInterval g7 5 2 ∧ randInterval g7 3 3 = (3, g7) :=
  ⟨(C9_interval g7 (by decide) 2 5).1, (C9_interval g7 (by decide) 3 3).2⟩

/-- C10: `reparametrize` and `reseed` are not atomic on failure: they always
overwrite the stored fields (`reseed` sets `seed` and `curRand` to the new
seed; `reparametrize` additionally replaces `p`, `a`, `b`), recompute the flag
from the new fields, and when the new parameters fail the validity predicate
the generator is left invalid with the new fields in place (no rollback). -/
theorem C10_overwrite (g : State) (p a b s : ℕ) :
    (reparametrize g p a b s).2
      = { g with generatorIsValid := checkGeneratorIsValid p a b s
                 p := p, a := a, b := b, seed := s, curRand := s } ∧
    (reparametrize g p a b s).1 = checkGeneratorIsValid p a b s ∧
    (reseed g s).2
      = { g with generatorIsValid := checkGeneratorIsValid g.p g.a g.b s
                 seed := s, curRand := s } ∧
    (reseed g s).1 = checkGeneratorIsValid g.p g.a g.b s ∧
    (checkGeneratorIsValid p a b s = false →
      (reparametrize g p a b s).2.generatorIsValid = false) ∧
    (checkGeneratorIsValid g.p g.a g.b s = false →
      (reseed g s).2.generatorIsValid = false) :=
  ⟨rfl, rfl, rfl, rfl, fun h => h, fun h => h⟩

/-- Witness for C10: an invalid reparametrization (`p = 4` is not prime) and an
invalid reseed (`9 ≥ 7`) both overwrite the fields and leave the flag false. -/
theorem C10_witness :
    (reparametrize g7 4 1 1 1).2.generatorIsValid = false ∧
    (reseed g7 9).2.generatorIsValid = false :=
  ⟨(C10_overwrite g7 4 1 1 1).2.2.2.2.1 (by decide),
   (C10_overwrite g7 4 1 1 9).2.2.2.2.2 (by decide)⟩

end ICG

namespace ICG



/-- On the invalid generator `g9` every Box-Muller iteration draws
`u1 = u2 = 0` (both guarded draws return `0` without touching the state), so
`q = 0 ≤ EPS` and the rejection loop never accepts. -/
theorem bmLoop_g9 : ∀ fuel, bmLoop fuel g9 = none := by
  intro fuel
  induction fuel with
  | zero => rfl
  | succ f ih =>
      have hIter : bmIter g9 = (0, 0, g9) := by decide
      simp only [bmLoop, hIter]
      rw [if_pos (by norm_num [EPS])]
      exact ih

/-- On the valid degenerate generator `gdeg`, `rand` always returns `0` with
the state unchanged (`curRand = 0` is re-set to `b = 0`), so each uniform draw
on `[-1, 1)` is exactly `-1`. -/
theorem randInterval_gdeg : randInterval gdeg (-1) 1 = (-1, gdeg) := by
  have hr : rand gdeg = (0, gdeg) := by decide
  have hp : gdeg.p = 5 := rfl
  unfold randInterval
  rw [if_neg (show ¬ gdeg.generatorIsValid = false by decide),
    if_neg (show ¬ (1 : ℚ) = -1 by norm_num),
    if_neg (show ¬ (1 : ℚ) < -1 by norm_num),
    if_neg (show ¬ (1 : ℚ) < -1 by norm_num), hr, hp]
  norm_num

/-- On `gdeg` every Box-Muller iteration draws `u1 = u2 = -1` with the state
unchanged. -/
theorem bmIter_gdeg : bmIter gdeg = (-1, -1, gdeg) := by
  simp only [bmIter, randInterval_gdeg]

/-- On `gdeg` each iteration has `q = 2 > 1`, so the rejection loop never
accepts. -/
theorem bmLoop_gdeg : ∀ fuel, bmLoop fuel gdeg = none := by
  intro fuel
  induction fuel with
  | zero => rfl
  | succ f ih =>
      simp only [bmLoop, bmIter_gdeg]
      rw [if_pos (by norm_num [EPS])]
      exact ih

/-- C3 (code bug): on the invalid generator `g9`, the guarded samplers do
return `0` with the state unchanged, but `randStdNorm` violates the claim: with
no spare pending its rejection loop never accepts (the call never returns, so
also `randNormal`, which calls it, never returns), and with a spare pending it
returns the cached value (here `5 ≠ 0`) and clears the flag, mutating state. -/
theorem C3_invalid_samplers_bug :
    g9.generatorIsValid = false ∧
    rand g9 = (0, g9) ∧ rand01 g9 = (0, g9) ∧ randRange g9 100 = (0, g9) ∧
    randInterval g9 2 5 = (0, g9) ∧
    (∀ fuel, randStdNorm fuel g9 = StdNormResult.loops) ∧
    randStdNorm 1 { g9 with useMullerNormal := true, mullerNormal := 5 }
      = StdNormResult.spare 5 { g9 with useMullerNormal := false, mullerNormal := 5 } := by
  have hrange : randRange g9 100 = (0, g9) := by
    have h01 : rand01 g9 = (0, g9) := by decide
    unfold randRange
    rw [h01]
    norm_num
  refine ⟨by decide, by decide, by decide, hrange, by decide, ?_, by decide⟩
  intro fuel
  unfold randStdNorm
  rw [if_neg (show ¬ g9.useMullerNormal = true by decide), bmLoop_g9 fuel]

/-- C4 (code bug): neither the constructor nor `reseed` nor `reparametrize`
touches `useMullerNormal`: a raised spare flag survives both operations, and at
construction the flag simply keeps its indeterminate initial content. -/
theorem C4_spare_flag_bug :
    (construct 7 3 2 1 (1 / 2) true).useMullerNormal = true ∧
    (reseed { g7 with useMullerNormal := true } 1).2.useMullerNormal = true ∧
    (reparametrize { g7 with useMullerNormal := true } 7 3 2 1).2.useMullerNormal = true :=
  ⟨rfl, rfl, rfl⟩

/-- C6 (code bug): `gdeg = ICG ( 5, 0, 0, 0 )` is a valid generator on which
the `randStdNorm` rejection loop never accepts for any iteration count: the
call never terminates. -/
theorem C6_nontermination_bug :
    gdeg.generatorIsValid = true ∧ gdeg.useMullerNormal = false ∧
    (∀ fuel, randStdNorm fuel gdeg = StdNormResult.loops) := by
  refine ⟨by decide, rfl, ?_⟩
  intro fuel
  unfold randStdNorm
  rw [if_neg (show ¬ gdeg.useMullerNormal = true by decide), bmLoop_gdeg fuel]

end ICG
